import Mathlib

/-!
Verification development for the hashenv encrypted secret store.

Shallow embedding of the backend core:
- the AES-256-GCM envelope wrappers of `src/backend/src/lib/secure-logger.ts`
  (`encryptEnv` / `decryptEnv`), with the AEAD primitive of Node's `crypto`
  module modelled as an idealized executable stream cipher plus tag function;
- the permission evaluator of `src/backend/src/lib/authorization.ts`;
- the audit logger of `src/backend/src/lib/logging.ts`;
- the environment-file route handlers (upload / content / download / edit /
  delete / logs download) and the panic handler of the settings routes;
- the member-removal handler of `src/backend/src/routes/projects.ts`.

Machine integers do not overflow in the modelled paths (versions are small
positive integers), so versions are `Nat`.  Byte buffers are `List Nat` with
values reduced mod 256 where the cipher produces them.  The Mongo document
store is modelled as in-memory lists inside a `Store` structure; fallible
handlers return `Except`.
-/

namespace HashEnv

/-- Byte buffers (`Buffer` in the source) as lists of byte values. -/
abbrev Bytes := List Nat

/-- `const KEY_LENGTH = 32` (secure-logger.ts / crypto.ts). -/
def KEY_LENGTH : Nat := 32

/-- `const IV_LENGTH = 16` (secure-logger.ts / crypto.ts). -/
def IV_LENGTH : Nat := 16

/-- `const AUTH_TAG_LENGTH = 16` (secure-logger.ts / crypto.ts). -/
def AUTH_TAG_LENGTH : Nat := 16

/-- `getMasterKey` succeeds exactly on a decoded key of 32 bytes; base64
decoding is not modelled, the key is taken already decoded. -/
def validMasterKey (key : Bytes) : Bool := key.length == KEY_LENGTH

/-- Modelled from the spec: the AEAD primitive (`crypto.createCipheriv`
with `aes-256-gcm`) is external library code.  Its keystream is modelled as
an idealized executable byte stream determined by `(key, iv, position)`;
all that the development uses is that the stream is reproducible from
`(key, iv)` and that each byte is `< 256`. -/
def keystream (key iv : Bytes) (i : Nat) : Nat :=
  (key.foldl (fun a b => a * 31 + b) 7 +
   iv.foldl (fun a b => a * 131 + b) 11 + i * 911 + 1) % 256

/-- Modelled from the spec: GCM encryption of the plaintext bytes, position
`i` onwards, as keystream addition mod 256. -/
def encBytes (key iv : Bytes) : Nat → Bytes → Bytes
  | _, [] => []
  | i, b :: rest => (b + keystream key iv i) % 256 :: encBytes key iv (i + 1) rest

/-- Modelled from the spec: GCM decryption, the inverse keystream
subtraction mod 256. -/
def decBytes (key iv : Bytes) : Nat → Bytes → Bytes
  | _, [] => []
  | i, b :: rest => (b + 256 - keystream key iv i) % 256 :: decBytes key iv (i + 1) rest

/-- Modelled from the spec: the 16-byte GCM authentication tag, an
executable function of key, nonce and ciphertext. -/
def gcmTag (key iv ct : Bytes) : Bytes :=
  (List.range AUTH_TAG_LENGTH).map
    (fun j => (ct.foldl (fun a b => a * 257 + b) 3 + keystream key iv j + j) % 256)

/-- Error taxonomy of the envelope cipher wrappers (thrown `Error`s in the
source, distinguished here by their messages' cases). -/
inductive CryptoError
  | configuration
  | invalidIvLength (got : Nat)
  | invalidAuthTagLength (got : Nat)
  | integrity
  deriving DecidableEq, Repr

/-- The `{encryptedData, iv, authTag}` result object of `encryptEnv`. -/
structure EncryptedBlob where
  encryptedData : Bytes
  iv : Bytes
  authTag : Bytes
  deriving DecidableEq, Repr

/-- `encryptEnv(data)` of secure-logger.ts: validates the master key,
then encrypts under a fresh random nonce.  `crypto.randomBytes(IV_LENGTH)`
is modelled by the caller-supplied `nonce` argument (theorems that use the
encrypting path assume `nonce.length = IV_LENGTH`, which `randomBytes`
guarantees). -/
def encryptEnv (key nonce : Bytes) (data : Bytes) : Except CryptoError EncryptedBlob :=
  if validMasterKey key then
    let ct := encBytes key nonce 0 data
    .ok { encryptedData := ct, iv := nonce, authTag := gcmTag key nonce ct }
  else .error .configuration

/-- `decryptEnv(encryptedData, iv, authTag)` of secure-logger.ts: master
key check, then the two exact-length checks (`iv.length !== IV_LENGTH`,
`authTag.length !== AUTH_TAG_LENGTH`), then GCM decryption whose tag
verification failure is caught and rethrown as the generic integrity
error. -/
def decryptEnv (key : Bytes) (encryptedData iv authTag : Bytes) :
    Except CryptoError Bytes :=
  if validMasterKey key then
    if iv.length ≠ IV_LENGTH then .error (.invalidIvLength iv.length)
    else if authTag.length ≠ AUTH_TAG_LENGTH then .error (.invalidAuthTagLength authTag.length)
    else if authTag = gcmTag key iv encryptedData then .ok (decBytes key iv 0 encryptedData)
    else .error .integrity
  else .error .configuration

theorem keystream_lt (key iv : Bytes) (i : Nat) : keystream key iv i < 256 :=
  Nat.mod_lt _ (by decide)

theorem decBytes_encBytes (key iv : Bytes) (data : Bytes)
    (hb : ∀ b ∈ data, b < 256) :
    ∀ i, decBytes key iv i (encBytes key iv i data) = data := by
  induction data with
  | nil => intro i; rfl
  | cons b rest ih =>
    intro i
    have hb1 : b < 256 := hb b (List.mem_cons_self b rest)
    have hrest : ∀ x ∈ rest, x < 256 := fun x hx => hb x (List.mem_cons_of_mem b hx)
    have hk : keystream key iv i < 256 := keystream_lt key iv i
    simp only [encBytes, decBytes, ih hrest]
    have hhead : ((b + keystream key iv i) % 256 + 256 - keystream key iv i) % 256 = b := by
      have h1 : ((b + keystream key iv i) % 256 + 256 - keystream key iv i) =
          (b + keystream key iv i) % 256 + (256 - keystream key iv i) := by omega
      rw [h1, Nat.mod_add_mod]
      have h2 : b + keystream key iv i + (256 - keystream key iv i) = b + 256 := by omega
      rw [h2]
      omega
    rw [hhead]

theorem gcmTag_length (key iv ct : Bytes) : (gcmTag key iv ct).length = AUTH_TAG_LENGTH := by
  simp [gcmTag]

theorem roundtrip_aux (key nonce p : Bytes)
    (hkey : key.length = KEY_LENGTH) (hnonce : nonce.length = IV_LENGTH)
    (hbytes : ∀ b ∈ p, b < 256) :
    (encryptEnv key nonce p).bind
      (fun blob => decryptEnv key blob.encryptedData blob.iv blob.authTag) = .ok p := by
  have hv : validMasterKey key = true := by
    simp [validMasterKey, hkey]
  simp only [encryptEnv, hv, if_true, Except.bind]
  simp only [decryptEnv, hv, if_true, hnonce]
  rw [decBytes_encBytes key nonce p hbytes 0]
  simp [gcmTag_length]

/-- C2: decrypting the output of `encryptEnv` under the same 32-byte master
key returns exactly the plaintext, for every plaintext of at most 50 KiB
(byte values `< 256`) and every 16-byte nonce as produced by
`crypto.randomBytes(IV_LENGTH)`. -/
theorem encrypt_decrypt_roundtrip (key nonce p : Bytes)
    (hkey : key.length = KEY_LENGTH) (hnonce : nonce.length = IV_LENGTH)
    (hsize : p.length ≤ 50 * 1024) (hbytes : ∀ b ∈ p, b < 256) :
    (encryptEnv key nonce p).bind
      (fun blob => decryptEnv key blob.encryptedData blob.iv blob.authTag) = .ok p :=
  roundtrip_aux key nonce p hkey hnonce hbytes

/-- Witness for C2 at a concrete key, nonce and plaintext. -/
theorem encrypt_decrypt_roundtrip_witness :
    (encryptEnv (List.replicate 32 1) (List.replicate 16 2) [65, 61, 49]).bind
      (fun blob => decryptEnv (List.replicate 32 1) blob.encryptedData blob.iv blob.authTag) =
      .ok [65, 61, 49] :=
  encrypt_decrypt_roundtrip (List.replicate 32 1) (List.replicate 16 2) [65, 61, 49]
    (by decide) (by decide) (by decide) (by decide)

/-- C4 counterexample: a 12-byte nonce with a 16-byte tag is rejected by
the length validation (`Invalid IV length`), although the claim says a
nonce of 12..16 bytes passes validation and decryption is attempted. -/
theorem decrypt_rejects_twelve_byte_nonce :
    decryptEnv (List.replicate 32 1) [7] (List.replicate 12 0) (List.replicate 16 0) =
      .error (.invalidIvLength 12) := by
  rfl

/-- C4 (amended): with a valid master key, decryption is attempted exactly
when the nonce is exactly 16 bytes and the tag exactly 16 bytes; a nonce or
tag of any other length is rejected with the corresponding length
validation error before any decryption is attempted. -/
theorem decrypt_length_validation (key ct iv tag : Bytes)
    (hkey : key.length = KEY_LENGTH) :
    (iv.length = IV_LENGTH → tag.length = AUTH_TAG_LENGTH →
      decryptEnv key ct iv tag = .error .integrity ∨
      decryptEnv key ct iv tag = .ok (decBytes key iv 0 ct)) ∧
    (iv.length ≠ IV_LENGTH →
      decryptEnv key ct iv tag = .error (.invalidIvLength iv.length)) ∧
    (iv.length = IV_LENGTH → tag.length ≠ AUTH_TAG_LENGTH →
      decryptEnv key ct iv tag = .error (.invalidAuthTagLength tag.length)) := by
  have hv : validMasterKey key = true := by
    simp [validMasterKey, hkey]
  refine ⟨?_, ?_, ?_⟩
  · intro hiv htag
    simp only [decryptEnv, hv, if_true, hiv, htag]
    by_cases h : tag = gcmTag key iv ct
    · right; rw [if_neg (by simp [IV_LENGTH]), if_neg (by simp [AUTH_TAG_LENGTH]), if_pos h]
    · left; rw [if_neg (by simp [IV_LENGTH]), if_neg (by simp [AUTH_TAG_LENGTH]), if_neg h]
  · intro hiv
    simp only [decryptEnv, hv, if_true]
    rw [if_pos hiv]
  · intro hiv htag
    simp only [decryptEnv, hv, if_true, hiv]
    rw [if_neg (by simp [IV_LENGTH]), if_pos htag]

/-- Witness for the amended C4 at concrete inputs. -/
theorem decrypt_length_validation_witness :
    decryptEnv (List.replicate 32 1) [7] (List.replicate 13 0) (List.replicate 16 0) =
      .error (.invalidIvLength 13) :=
  (decrypt_length_validation (List.replicate 32 1) [7] (List.replicate 13 0)
      (List.replicate 16 0) (by decide)).2.1 (by decide)

/-- `Permission` (`'read' | 'write'`) of authorization.ts. -/
inductive Permission
  | read
  | write
  deriving DecidableEq, Repr

/-- `'dev' | 'staging' | 'prod'` environment names. -/
inductive Env
  | dev
  | staging
  | prod
  deriving DecidableEq, Repr

/-- `LogAction` of models/EnvLog.ts. -/
inductive LogAction
  | upload
  | download
  | edit
  | delete
  | access
  deriving DecidableEq, Repr

/-- One entry of `Project.members` (models/Project.ts). -/
structure MemberEntry where
  userId : Nat
  permission : Permission
  deriving DecidableEq, Repr

/-- A `Project` document: `createdBy` is the owner. -/
structure Project where
  pid : Nat
  name : String
  createdBy : Nat
  members : List MemberEntry
  deriving DecidableEq, Repr

/-- `Project.findById` over the in-memory projects collection. -/
def findProjectById (projects : List Project) (projectId : Nat) : Option Project :=
  projects.find? (fun p => p.pid == projectId)

/-- `isProjectOwner(userId, project)` of authorization.ts:
`project.createdBy.toString() === userId`. -/
def isProjectOwner (userId : Nat) (project : Project) : Bool :=
  project.createdBy == userId

/-- `project.members.find(m => m.userId.toString() === userId)`. -/
def findMember (project : Project) (userId : Nat) : Option MemberEntry :=
  project.members.find? (fun m => m.userId == userId)

/-- `getUserProjectPermission(userId, projectId)` of authorization.ts. -/
def getUserProjectPermission (projects : List Project) (userId projectId : Nat) :
    Option Permission :=
  match findProjectById projects projectId with
  | none => none
  | some project =>
    if isProjectOwner userId project then some .write
    else
      match findMember project userId with
      | some member => some member.permission
      | none => none

/-- Outcome of the `requireProjectAccess` middleware: 404, 403, or calling
`next()` with the project attached to the request. -/
inductive AccessResult
  | notFound
  | forbidden
  | authorized (project : Project)
  deriving DecidableEq, Repr

/-- `requireProjectAccess(requiredPermission)` of authorization.ts, after
authentication and id-format validation: load the project (404 if absent),
let owners through, 403 non-members, and compare the member's permission
with the required one (`write` members satisfy both, `read` members only
`read`). -/
def requireProjectAccess (projects : List Project) (requiredPermission : Permission)
    (userId projectId : Nat) : AccessResult :=
  match findProjectById projects projectId with
  | none => .notFound
  | some project =>
    if isProjectOwner userId project then .authorized project
    else
      match findMember project userId with
      | none => .forbidden
      | some member =>
        if member.permission = .write ∨
            (requiredPermission = .read ∧ member.permission = .read) then
          .authorized project
        else .forbidden

/-- `requireProjectOwnership()` of authorization.ts: 404 if the project is
absent, 403 unless the caller is the owner. -/
def requireProjectOwnership (projects : List Project) (userId projectId : Nat) :
    AccessResult :=
  match findProjectById projects projectId with
  | none => .notFound
  | some project =>
    if isProjectOwner userId project then .authorized project else .forbidden

/-- C1: the permission matrix of the access check.  A missing project gives
NotFound for either required level; the owner is authorized for both
levels; a `write` member is authorized for both; a `read` member is
authorized for `read` and Forbidden for `write`; a user who is neither
owner nor member is Forbidden for both.  The same cases determine
`getUserProjectPermission`. -/
theorem permission_matrix (projects : List Project) (userId projectId : Nat)
    (lvl : Permission) :
    (findProjectById projects projectId = none →
      requireProjectAccess projects lvl userId projectId = .notFound ∧
      getUserProjectPermission projects userId projectId = none) ∧
    ∀ project, findProjectById projects projectId = some project →
      (isProjectOwner userId project = true →
        requireProjectAccess projects lvl userId projectId = .authorized project ∧
        getUserProjectPermission projects userId projectId = some .write) ∧
      (isProjectOwner userId project = false → findMember project userId = none →
        requireProjectAccess projects lvl userId projectId = .forbidden ∧
        getUserProjectPermission projects userId projectId = none) ∧
      ∀ member, isProjectOwner userId project = false →
        findMember project userId = some member →
        getUserProjectPermission projects userId projectId = some member.permission ∧
        (member.permission = .write →
          requireProjectAccess projects lvl userId projectId = .authorized project) ∧
        (member.permission = .read → lvl = .read →
          requireProjectAccess projects lvl userId projectId = .authorized project) ∧
        (member.permission = .read → lvl = .write →
          requireProjectAccess projects lvl userId projectId = .forbidden) := by
  refine ⟨?_, ?_⟩
  · intro hnone
    simp [requireProjectAccess, getUserProjectPermission, hnone]
  · intro project hfind
    refine ⟨?_, ?_, ?_⟩
    · intro howner
      simp [requireProjectAccess, getUserProjectPermission, hfind, howner]
    · intro howner hmem
      simp [requireProjectAccess, getUserProjectPermission, hfind, howner, hmem]
    · intro member howner hmem
      refine ⟨?_, ?_, ?_, ?_⟩
      · simp [getUserProjectPermission, hfind, howner, hmem]
      · intro hw
        simp [requireProjectAccess, hfind, howner, hmem, hw]
      · intro hr hlvl
        simp [requireProjectAccess, hfind, howner, hmem, hr, hlvl]
      · intro hr hlvl
        simp [requireProjectAccess, hfind, howner, hmem, hr, hlvl]

/-- Witness for C1: a concrete project with owner 1, a write member 2 and a
read member 3, exercised for user 3 at level `write` (denied). -/
theorem permission_matrix_witness :
    findProjectById [⟨10, "p", 1, [⟨2, .write⟩, ⟨3, .read⟩]⟩] 10 =
      some ⟨10, "p", 1, [⟨2, .write⟩, ⟨3, .read⟩]⟩ ∧
    requireProjectAccess [⟨10, "p", 1, [⟨2, .write⟩, ⟨3, .read⟩]⟩] .write 3 10 = .forbidden := by
  refine ⟨by decide, ?_⟩
  exact ((((permission_matrix [⟨10, "p", 1, [⟨2, .write⟩, ⟨3, .read⟩]⟩] 3 10 .write).2
      ⟨10, "p", 1, [⟨2, .write⟩, ⟨3, .read⟩]⟩ (by decide)).2.2 ⟨3, .read⟩ (by decide)
      (by decide)).2.2.2 rfl rfl)

/-- An `EnvFile` document (models/EnvFile.ts). -/
structure EnvFileRecord where
  id : Nat
  projectId : Nat
  environment : Env
  encryptedData : Bytes
  iv : Bytes
  authTag : Bytes
  version : Nat
  uploadedBy : Nat
  deriving DecidableEq, Repr

/-- The slice of a `User` document used by the audit logger. -/
structure UserRecord where
  id : Nat
  name : String
  email : String
  deriving DecidableEq, Repr

/-- `LogMetadata` of lib/logging.ts. -/
structure LogMetadata where
  oldVersion : Option Nat := none
  newVersion : Option Nat := none
  fileName : Option String := none
  deriving DecidableEq, Repr

/-- An `EnvLog` document (models/EnvLog.ts); `createdAt` timestamps are not
modelled, the list order of `Store.logs` is creation order. -/
structure EnvLogEntry where
  projectId : Nat
  envFileId : Option Nat
  environment : Env
  version : Option Nat
  action : LogAction
  performedBy : Nat
  performedByEmail : String
  performedByName : String
  metadata : LogMetadata
  deriving DecidableEq, Repr

/-- A named `Secret` document; only its identity matters here (the panic
cascade must leave this collection untouched). -/
structure SecretRecord where
  id : Nat
  projectId : Nat
  name : String
  blob : EncryptedBlob
  deriving DecidableEq, Repr

/-- `panicButton` sub-document of models/UserSettings.ts. -/
structure PanicButtonConfig where
  flushEnvs : Bool
  revokeCollaborators : Bool
  downloadEnvs : Bool
  askConfirmation : Bool
  deriving DecidableEq, Repr

/-- A `UserSettings` document. -/
structure UserSettingsRecord where
  userId : Nat
  flushDuration : Option Nat
  panicButton : PanicButtonConfig
  deriving DecidableEq, Repr

/-- The document store: the Mongo collections as in-memory lists. -/
structure Store where
  projects : List Project
  envFiles : List EnvFileRecord
  users : List UserRecord
  logs : List EnvLogEntry
  secrets : List SecretRecord
  settings : List UserSettingsRecord
  deriving DecidableEq, Repr

/-- `logEnvAction` of lib/logging.ts.  The whole body is wrapped in
`try..catch`: a missing acting user returns after a console error, and a
failing `EnvLog.create` (modelled by `logOk = false`) is swallowed by the
catch; in both cases the store is returned unchanged. -/
def logEnvAction (logOk : Bool) (s : Store) (projectId userId : Nat) (action : LogAction)
    (environment : Env) (metadata : LogMetadata) (envFileId : Option Nat)
    (version : Option Nat) : Store :=
  match s.users.find? (fun u => u.id == userId) with
  | none => s
  | some user =>
    if logOk then
      { s with logs := s.logs ++
          [{ projectId := projectId, envFileId := envFileId, environment := environment,
             version := version, action := action, performedBy := userId,
             performedByEmail := user.email, performedByName := user.name,
             metadata := metadata }] }
    else s

/-- A store with its audit log removed: two stores equal after `scrubLogs`
differ at most in their audit log. -/
def scrubLogs (s : Store) : Store := { s with logs := [] }

theorem logEnvAction_frame (logOk : Bool) (s : Store) (projectId userId : Nat)
    (action : LogAction) (environment : Env) (metadata : LogMetadata)
    (envFileId version' : Option Nat) :
    (logEnvAction logOk s projectId userId action environment metadata envFileId
        version').envFiles = s.envFiles ∧
    (logEnvAction logOk s projectId userId action environment metadata envFileId
        version').projects = s.projects ∧
    (logEnvAction logOk s projectId userId action environment metadata envFileId
        version').users = s.users ∧
    (logEnvAction logOk s projectId userId action environment metadata envFileId
        version').secrets = s.secrets ∧
    (logEnvAction logOk s projectId userId action environment metadata envFileId
        version').settings = s.settings := by
  simp only [logEnvAction]
  split
  · exact ⟨rfl, rfl, rfl, rfl, rfl⟩
  · split
    · exact ⟨rfl, rfl, rfl, rfl, rfl⟩
    · exact ⟨rfl, rfl, rfl, rfl, rfl⟩

theorem scrubLogs_logEnvAction (logOk : Bool) (s : Store) (projectId userId : Nat)
    (action : LogAction) (environment : Env) (metadata : LogMetadata)
    (envFileId version' : Option Nat) :
    scrubLogs (logEnvAction logOk s projectId userId action environment metadata
      envFileId version') = scrubLogs s := by
  simp only [logEnvAction]
  split
  · rfl
  · split <;> rfl

theorem logEnvAction_missing_user (logOk : Bool) (s : Store) (projectId userId : Nat)
    (action : LogAction) (environment : Env) (metadata : LogMetadata)
    (envFileId version' : Option Nat)
    (h : s.users.find? (fun u => u.id == userId) = none) :
    logEnvAction logOk s projectId userId action environment metadata envFileId
      version' = s := by
  simp [logEnvAction, h]

theorem logEnvAction_ok (logOk : Bool) (s : Store) (projectId userId : Nat)
    (action : LogAction) (environment : Env) (metadata : LogMetadata)
    (envFileId version' : Option Nat) (user : UserRecord)
    (h : s.users.find? (fun u => u.id == userId) = some user) (hOk : logOk = true) :
    logEnvAction logOk s projectId userId action environment metadata envFileId
        version' =
      { s with logs := s.logs ++
          [{ projectId := projectId, envFileId := envFileId, environment := environment,
             version := version', action := action, performedBy := userId,
             performedByEmail := user.email, performedByName := user.name,
             metadata := metadata }] } := by
  simp [logEnvAction, h, hOk]

/-- Error taxonomy of the HTTP handlers, by status and message. -/
inductive ApiError
  | badRequest (msg : String)
  | notFound (msg : String)
  | forbidden (msg : String)
  | server (msg : String)
  deriving DecidableEq, Repr

/-- The `{projectId, environment}` filter used on the `EnvFile` collection. -/
def envFileMatches (projectId : Nat) (environment : Env) (f : EnvFileRecord) : Bool :=
  f.projectId == projectId && f.environment == environment

/-- Largest version among the rows for `(projectId, environment)` (0 when
none exist; stored versions are always ≥ 1). -/
def maxEnvVersion (files : List EnvFileRecord) (projectId : Nat) (environment : Env) : Nat :=
  (files.filter (envFileMatches projectId environment)).foldl (fun a f => max a f.version) 0

/-- `nextVersion` of the upload handler:
`EnvFile.findOne({projectId, environment}).sort({version: -1})` yields a
row of maximal version when one exists, and the handler computes
`latestEnvFile ? latestEnvFile.version + 1 : 1`. -/
def nextVersion (files : List EnvFileRecord) (projectId : Nat) (environment : Env) : Nat :=
  if (files.filter (envFileMatches projectId environment)).isEmpty then 1
  else maxEnvVersion files projectId environment + 1

/-- `POST /:projectId/env` handler body (after `requireProjectAccess('write')`
and input validation): size check, encrypt, compute `nextVersion`, create
the row, audit `upload`, return the new version.  `crypto.randomBytes` and
the fresh Mongo `_id` are the `nonce` and `newId` arguments. -/
def uploadEnv (logOk : Bool) (key : Bytes) (s : Store) (projectId : Nat)
    (environment : Env) (content : Bytes) (userId newId : Nat) (nonce : Bytes) :
    Except ApiError (Store × Nat) :=
  if 50 * 1024 < content.length then .error (.badRequest "File size must be less than 50KB")
  else
    match encryptEnv key nonce content with
    | .error _ => .error (.server "Failed to upload environment file")
    | .ok blob =>
      let v := nextVersion s.envFiles projectId environment
      let row : EnvFileRecord :=
        { id := newId, projectId := projectId, environment := environment,
          encryptedData := blob.encryptedData, iv := blob.iv, authTag := blob.authTag,
          version := v, uploadedBy := userId }
      let s1 : Store := { s with envFiles := s.envFiles ++ [row] }
      let s2 := logEnvAction logOk s1 projectId userId .upload environment
        { newVersion := some v } (some newId) (some v)
      .ok (s2, v)

theorem foldl_max_shift (l : List EnvFileRecord) :
    ∀ a : Nat, l.foldl (fun x f => max x f.version) a =
      max a (l.foldl (fun x f => max x f.version) 0) := by
  induction l with
  | nil => intro a; simp
  | cons f t ih =>
    intro a
    simp only [List.foldl]
    rw [ih (max a f.version), ih (max 0 f.version)]
    omega

theorem nextVersion_append (files : List EnvFileRecord) (projectId : Nat)
    (environment : Env) (r : EnvFileRecord)
    (hmatch : envFileMatches projectId environment r = true)
    (hver : r.version = nextVersion files projectId environment) :
    nextVersion (files ++ [r]) projectId environment =
      nextVersion files projectId environment + 1 := by
  have hfilter : (files ++ [r]).filter (envFileMatches projectId environment) =
      files.filter (envFileMatches projectId environment) ++ [r] := by
    rw [List.filter_append]
    simp [hmatch]
  have hmax : maxEnvVersion (files ++ [r]) projectId environment =
      max (maxEnvVersion files projectId environment) r.version := by
    simp only [maxEnvVersion, hfilter, List.foldl_append, List.foldl]
  have hne2 : (files.filter (envFileMatches projectId environment) ++ [r]).isEmpty
      = false := by
    rcases files.filter (envFileMatches projectId environment) with _ | ⟨a, t⟩ <;> rfl
  cases hEmpty : (files.filter (envFileMatches projectId environment)).isEmpty with
  | true =>
    have h0 : files.filter (envFileMatches projectId environment) = [] :=
      List.isEmpty_iff.mp hEmpty
    have hm0 : maxEnvVersion files projectId environment = 0 := by
      simp [maxEnvVersion, h0]
    have hv1 : r.version = 1 := by rw [hver]; simp [nextVersion, hEmpty]
    simp only [nextVersion, hfilter, hne2, hEmpty, Bool.false_eq_true, if_false, if_true]
    rw [hmax, hm0, hv1]
    omega
  | false =>
    have hvM : r.version = maxEnvVersion files projectId environment + 1 := by
      rw [hver]; simp [nextVersion, hEmpty]
    simp only [nextVersion, hfilter, hne2, hEmpty, Bool.false_eq_true, if_false]
    rw [hmax, hvM]
    omega

/-- One upload request's inputs: plaintext, actor, and the fresh `_id` and
nonce drawn for this request. -/
structure UploadInput where
  content : Bytes
  userId : Nat
  newId : Nat
  nonce : Bytes
  deriving DecidableEq, Repr

/-- A sequence of upload calls on a fixed `(projectId, environment)`,
collecting the returned versions (stopping on an error response). -/
def uploadSeq (logOk : Bool) (key : Bytes) (s : Store) (projectId : Nat)
    (environment : Env) : List UploadInput → Store × List Nat
  | [] => (s, [])
  | inp :: rest =>
    match uploadEnv logOk key s projectId environment inp.content inp.userId
        inp.newId inp.nonce with
    | .error _ => (s, [])
    | .ok (s', v) =>
      let r := uploadSeq logOk key s' projectId environment rest
      (r.1, v :: r.2)

theorem uploadEnv_ok (logOk : Bool) (key : Bytes) (s : Store) (projectId : Nat)
    (environment : Env) (content : Bytes) (userId newId : Nat) (nonce : Bytes)
    (hkey : key.length = KEY_LENGTH) (hsize : content.length ≤ 50 * 1024) :
    uploadEnv logOk key s projectId environment content userId newId nonce =
      .ok (logEnvAction logOk
            { s with envFiles := s.envFiles ++
                [{ id := newId, projectId := projectId, environment := environment,
                   encryptedData := encBytes key nonce 0 content, iv := nonce,
                   authTag := gcmTag key nonce (encBytes key nonce 0 content),
                   version := nextVersion s.envFiles projectId environment,
                   uploadedBy := userId }] }
            projectId userId .upload environment
            { newVersion := some (nextVersion s.envFiles projectId environment) }
            (some newId) (some (nextVersion s.envFiles projectId environment)),
          nextVersion s.envFiles projectId environment) := by
  have hv : validMasterKey key = true := by simp [validMasterKey, hkey]
  have hsz : ¬ 50 * 1024 < content.length := by omega
  simp only [uploadEnv, if_neg hsz, encryptEnv, hv, if_true]

theorem uploadSeq_versions (logOk : Bool) (key : Bytes) (projectId : Nat)
    (environment : Env) (inputs : List UploadInput)
    (hkey : key.length = KEY_LENGTH) :
    ∀ s : Store, (∀ inp ∈ inputs, inp.content.length ≤ 50 * 1024) →
      (uploadSeq logOk key s projectId environment inputs).2 =
        List.range' (nextVersion s.envFiles projectId environment) inputs.length := by
  induction inputs with
  | nil => intro s _; rfl
  | cons inp rest ih =>
    intro s hsize
    have hsz1 : inp.content.length ≤ 50 * 1024 := hsize inp (List.mem_cons_self inp rest)
    have hrest : ∀ i ∈ rest, i.content.length ≤ 50 * 1024 :=
      fun i hi => hsize i (List.mem_cons_of_mem inp hi)
    rw [List.length_cons, List.range'_succ]
    simp only [uploadSeq, uploadEnv_ok logOk key s projectId environment inp.content
      inp.userId inp.newId inp.nonce hkey hsz1]
    have hnext : nextVersion (logEnvAction logOk
        { s with envFiles := s.envFiles ++
            [{ id := inp.newId, projectId := projectId, environment := environment,
               encryptedData := encBytes key inp.nonce 0 inp.content, iv := inp.nonce,
               authTag := gcmTag key inp.nonce (encBytes key inp.nonce 0 inp.content),
               version := nextVersion s.envFiles projectId environment,
               uploadedBy := inp.userId }] }
        projectId inp.userId .upload environment
        { newVersion := some (nextVersion s.envFiles projectId environment) }
        (some inp.newId)
        (some (nextVersion s.envFiles projectId environment))).envFiles projectId
          environment =
        nextVersion s.envFiles projectId environment + 1 := by
      rw [(logEnvAction_frame _ _ _ _ _ _ _ _ _).1]
      exact nextVersion_append s.envFiles projectId environment _
        (by simp [envFileMatches]) rfl
    rw [ih _ hrest, hnext]

/-- C3: each upload on a fixed `(projectId, environment)` returns
`(max existing version) + 1`, defaulting to 1 when no row exists for the
pair; hence a sequence of uploads starting from a store with no rows for
the pair returns exactly the versions `1, 2, ..., n`. -/
theorem upload_version_monotonic (logOk : Bool) (key : Bytes) (s : Store)
    (projectId : Nat) (environment : Env) (inputs : List UploadInput)
    (hkey : key.length = KEY_LENGTH)
    (hsize : ∀ inp ∈ inputs, inp.content.length ≤ 50 * 1024)
    (hempty : s.envFiles.filter (envFileMatches projectId environment) = []) :
    (∀ (t : Store) (inp : UploadInput), inp.content.length ≤ 50 * 1024 →
      (uploadEnv logOk key t projectId environment inp.content inp.userId inp.newId
          inp.nonce).map Prod.snd =
        .ok (if (t.envFiles.filter (envFileMatches projectId environment)).isEmpty
          then 1 else maxEnvVersion t.envFiles projectId environment + 1)) ∧
    (uploadSeq logOk key s projectId environment inputs).2 =
      List.range' 1 inputs.length := by
  constructor
  · intro t inp hsz
    rw [uploadEnv_ok logOk key t projectId environment inp.content inp.userId
      inp.newId inp.nonce hkey hsz]
    simp [Except.map, nextVersion]
  · rw [uploadSeq_versions logOk key projectId environment inputs hkey s hsize]
    congr 1
    simp [nextVersion, hempty]

/-- Witness for C3: three uploads to an empty store return versions 1, 2, 3. -/
theorem upload_version_monotonic_witness :
    (uploadSeq true (List.replicate 32 1) ⟨[], [], [], [], [], []⟩ 10 .dev
      [⟨[65], 1, 100, List.replicate 16 0⟩, ⟨[66], 1, 101, List.replicate 16 0⟩,
       ⟨[67], 1, 102, List.replicate 16 0⟩]).2 = [1, 2, 3] := by
  have h := (upload_version_monotonic true (List.replicate 32 1)
    ⟨[], [], [], [], [], []⟩ 10 .dev
    [⟨[65], 1, 100, List.replicate 16 0⟩, ⟨[66], 1, 101, List.replicate 16 0⟩,
     ⟨[67], 1, 102, List.replicate 16 0⟩]
    (by decide) (by decide) (by decide)).2
  rw [h]
  decide

/-- `PUT /:projectId/env/:envFileId` handler (owner-only edit-in-place),
behind `requireProjectOwnership()`: find the row by `{_id, projectId}`,
re-encrypt the new content under a fresh nonce, replace the cryptographic
fields of the row (`envFile.save()`), audit `edit` with
`{oldVersion, newVersion: oldVersion}`. -/
def editEnv (logOk : Bool) (key : Bytes) (s : Store) (userId projectId envFileId : Nat)
    (content : Bytes) (nonce : Bytes) : Except ApiError Store :=
  match requireProjectOwnership s.projects userId projectId with
  | .notFound => .error (.notFound "Project not found")
  | .forbidden =>
    .error (.forbidden "Access denied: Only project owners can perform this action")
  | .authorized _ =>
    match s.envFiles.find? (fun f => f.id == envFileId && f.projectId == projectId) with
    | none => .error (.notFound "Environment file not found")
    | some envFile =>
      let oldVersion := envFile.version
      match encryptEnv key nonce content with
      | .error _ => .error (.server "Failed to update environment file")
      | .ok blob =>
        let s1 : Store := { s with envFiles := s.envFiles.map (fun f =>
            if f.id == envFileId then
              { f with
                  encryptedData := blob.encryptedData,
                  iv := blob.iv,
                  authTag := blob.authTag }
            else f) }
        .ok (logEnvAction logOk s1 projectId userId .edit envFile.environment
          { oldVersion := some oldVersion, newVersion := some oldVersion }
          (some envFileId) (some oldVersion))

/-- How an edit-in-place relates an old row to its updated image: identity
off the edited id; on the edited id, only the cryptographic fields change,
to a fresh encryption of `content` under `nonce`. -/
def EditedRow (key content nonce : Bytes) (envFileId : Nat)
    (old new : EnvFileRecord) : Prop :=
  new.version = old.version ∧ new.projectId = old.projectId ∧
  new.environment = old.environment ∧ new.uploadedBy = old.uploadedBy ∧
  new.id = old.id ∧
  (old.id ≠ envFileId → new = old) ∧
  (old.id = envFileId →
    new.encryptedData = encBytes key nonce 0 content ∧ new.iv = nonce ∧
    new.authTag = gcmTag key nonce (encBytes key nonce 0 content))

/-- C5: a successful owner edit-in-place replaces exactly the cryptographic
fields of the addressed row (version, projectId, environment and uploadedBy
are untouched, all other rows are untouched), and appends one audit entry
with `action = edit` whose metadata has `oldVersion = newVersion`
(both the edited row's version). -/
theorem edit_in_place_frame (key : Bytes) (s : Store)
    (userId projectId envFileId : Nat) (content nonce : Bytes)
    (project : Project) (envFile : EnvFileRecord) (user : UserRecord)
    (hown : requireProjectOwnership s.projects userId projectId = .authorized project)
    (hfind : s.envFiles.find? (fun f => f.id == envFileId && f.projectId == projectId) =
      some envFile)
    (hkey : key.length = KEY_LENGTH)
    (huser : s.users.find? (fun u => u.id == userId) = some user) :
    ∃ t, editEnv true key s userId projectId envFileId content nonce = .ok t ∧
      List.Forall₂ (EditedRow key content nonce envFileId) s.envFiles t.envFiles ∧
      t.logs = s.logs ++
        [{ projectId := projectId, envFileId := some envFileId,
           environment := envFile.environment, version := some envFile.version,
           action := .edit, performedBy := userId, performedByEmail := user.email,
           performedByName := user.name,
           metadata := { oldVersion := some envFile.version,
                         newVersion := some envFile.version } }] ∧
      t.projects = s.projects ∧ t.secrets = s.secrets := by
  have hv : validMasterKey key = true := by simp [validMasterKey, hkey]
  simp only [editEnv, hown, hfind, encryptEnv, hv, if_true]
  refine ⟨_, rfl, ?_, ?_, ?_, ?_⟩
  · rw [(logEnvAction_frame _ _ _ _ _ _ _ _ _).1]
    simp only [List.forall₂_map_right_iff]
    rw [List.forall₂_same]
    intro f _
    unfold EditedRow
    by_cases hid : f.id = envFileId
    · simp [hid]
    · simp [hid]
  · simp [logEnvAction, huser]
  · rw [(logEnvAction_frame _ _ _ _ _ _ _ _ _).2.1]
  · rw [(logEnvAction_frame _ _ _ _ _ _ _ _ _).2.2.2.1]

/-- Witness for C5 at a concrete store (owner 1 edits row 100 of project 10). -/
theorem edit_in_place_frame_witness :
    ∃ t, editEnv true (List.replicate 32 1)
        ⟨[⟨10, "p", 1, []⟩],
         [⟨100, 10, .dev, [9], List.replicate 16 3, List.replicate 16 4, 1, 1⟩],
         [⟨1, "n", "e"⟩], [], [], []⟩ 1 10 100 [65] (List.replicate 16 2) = .ok t ∧
      List.Forall₂
        (EditedRow (List.replicate 32 1) [65] (List.replicate 16 2) 100)
        [⟨100, 10, .dev, [9], List.replicate 16 3, List.replicate 16 4, 1, 1⟩]
        t.envFiles ∧
      t.logs =
        [{ projectId := 10, envFileId := some 100, environment := .dev,
           version := some 1, action := .edit, performedBy := 1,
           performedByEmail := "e", performedByName := "n",
           metadata := { oldVersion := some 1, newVersion := some 1 } }] ∧
      t.projects = [⟨10, "p", 1, []⟩] ∧ t.secrets = [] := by
  have h := edit_in_place_frame (List.replicate 32 1)
    ⟨[⟨10, "p", 1, []⟩],
     [⟨100, 10, .dev, [9], List.replicate 16 3, List.replicate 16 4, 1, 1⟩],
     [⟨1, "n", "e"⟩], [], [], []⟩ 1 10 100 [65] (List.replicate 16 2)
    ⟨10, "p", 1, []⟩ ⟨100, 10, .dev, [9], List.replicate 16 3, List.replicate 16 4, 1, 1⟩
    ⟨1, "n", "e"⟩ (by decide) (by decide) (by decide) (by decide)
  obtain ⟨t, h1, h2, h3, h4, h5⟩ := h
  exact ⟨t, h1, h2, by rw [h3]; rfl, h4, h5⟩

/-- Observable events of the delete handler, in execution order. -/
inductive DeleteEvent
  | auditAppend
  | rowRemove
  deriving DecidableEq, Repr

/-- `DELETE /:projectId/env/:envFileId` handler (owner-only), behind
`requireProjectOwnership()`: find the row, `logEnvAction('delete', ...)`
first, then `EnvFile.findByIdAndDelete`.  The emitted event list records
the execution order of the two effects; the audit append is an attempt
(`logOk = false` models its internal failure, which `logEnvAction`
swallows). -/
def deleteEnv (logOk : Bool) (s : Store) (userId projectId envFileId : Nat) :
    Except ApiError Store × List DeleteEvent :=
  match requireProjectOwnership s.projects userId projectId with
  | .notFound => (.error (.notFound "Project not found"), [])
  | .forbidden =>
    (.error (.forbidden "Access denied: Only project owners can perform this action"), [])
  | .authorized _ =>
    match s.envFiles.find? (fun f => f.id == envFileId && f.projectId == projectId) with
    | none => (.error (.notFound "Environment file not found"), [])
    | some envFile =>
      let s1 := logEnvAction logOk s projectId userId .delete envFile.environment
        { oldVersion := some envFile.version } (some envFileId) (some envFile.version)
      let s2 : Store := { s1 with envFiles := s1.envFiles.filter (fun f => f.id != envFileId) }
      (.ok s2, [.auditAppend, .rowRemove])

/-- C6: when the row exists (and the caller owns the project), the delete
handler emits the audit-append attempt strictly before the row removal,
and the row is removed for every outcome of the audit write (`logOk`
arbitrary); when the audit write succeeds the `delete` entry is in the log
of the final store even though the row is gone; and in every execution the
row-removal event only occurs preceded by the audit-append attempt. -/
theorem delete_audits_before_removal (logOk : Bool) (s : Store)
    (userId projectId envFileId : Nat) :
    (∀ project envFile,
      requireProjectOwnership s.projects userId projectId = .authorized project →
      s.envFiles.find? (fun f => f.id == envFileId && f.projectId == projectId) =
        some envFile →
      (deleteEnv logOk s userId projectId envFileId).2 =
        [.auditAppend, .rowRemove] ∧
      ∃ t, (deleteEnv logOk s userId projectId envFileId).1 = .ok t ∧
        t.envFiles = s.envFiles.filter (fun f => f.id != envFileId) ∧
        (logOk = true → ∀ user, s.users.find? (fun u => u.id == userId) = some user →
          t.logs = s.logs ++
            [{ projectId := projectId, envFileId := some envFileId,
               environment := envFile.environment, version := some envFile.version,
               action := .delete, performedBy := userId,
               performedByEmail := user.email, performedByName := user.name,
               metadata := { oldVersion := some envFile.version } }])) ∧
    (DeleteEvent.rowRemove ∈ (deleteEnv logOk s userId projectId envFileId).2 →
      (deleteEnv logOk s userId projectId envFileId).2 =
        [.auditAppend, .rowRemove]) := by
  constructor
  · intro project envFile hown hfind
    refine ⟨by simp only [deleteEnv, hown, hfind], ?_⟩
    simp only [deleteEnv, hown, hfind]
    refine ⟨_, rfl, ?_, ?_⟩
    · show (logEnvAction logOk s projectId userId .delete envFile.environment
        { oldVersion := some envFile.version } (some envFileId)
        (some envFile.version)).envFiles.filter (fun f => f.id != envFileId) =
        s.envFiles.filter (fun f => f.id != envFileId)
      rw [(logEnvAction_frame _ _ _ _ _ _ _ _ _).1]
    · intro hOk user huser
      show (logEnvAction logOk s projectId userId .delete envFile.environment
        { oldVersion := some envFile.version } (some envFileId)
        (some envFile.version)).logs = _
      rw [hOk, logEnvAction_ok true _ projectId userId .delete envFile.environment _
        (some envFileId) (some envFile.version) user huser rfl]
  · intro hmem
    simp only [deleteEnv] at hmem ⊢
    split at hmem
    · simp at hmem
    · simp at hmem
    · split at hmem
      · simp at hmem
      · rfl

/-- Witness for C6 with a failing audit write (`logOk = false`): the row is
still removed and the trace still shows the audit attempt first. -/
theorem delete_audits_before_removal_witness :
    (deleteEnv false
      ⟨[⟨10, "p", 1, []⟩],
       [⟨100, 10, .dev, [9], List.replicate 16 3, List.replicate 16 4, 1, 1⟩],
       [⟨1, "n", "e"⟩], [], [], []⟩ 1 10 100).2 = [.auditAppend, .rowRemove] ∧
    ∃ t, (deleteEnv false
      ⟨[⟨10, "p", 1, []⟩],
       [⟨100, 10, .dev, [9], List.replicate 16 3, List.replicate 16 4, 1, 1⟩],
       [⟨1, "n", "e"⟩], [], [], []⟩ 1 10 100).1 = .ok t ∧ t.envFiles = [] := by
  have h := ((delete_audits_before_removal false
    ⟨[⟨10, "p", 1, []⟩],
     [⟨100, 10, .dev, [9], List.replicate 16 3, List.replicate 16 4, 1, 1⟩],
     [⟨1, "n", "e"⟩], [], [], []⟩ 1 10 100).1 ⟨10, "p", 1, []⟩
    ⟨100, 10, .dev, [9], List.replicate 16 3, List.replicate 16 4, 1, 1⟩
    (by decide) (by decide))
  obtain ⟨htrace, t, hok, hfiles, _⟩ := h
  exact ⟨htrace, t, hok, by rw [hfiles]; rfl⟩

/-- `project.members = project.members.filter(m => m.userId.toString() !==
userId)` of the remove-member handler: the project with the target user
filtered out of `members`. -/
def removeTarget (targetUserId : Nat) (project : Project) : Project :=
  { project with members := project.members.filter (fun m => m.userId != targetUserId) }

/-- `DELETE /:id/members/:userId` handler of routes/projects.ts, behind
`requireProjectOwnership()`: filter the target user out of `members` and
save the project. -/
def removeMember (s : Store) (userId projectId targetUserId : Nat) :
    Except ApiError Store :=
  match requireProjectOwnership s.projects userId projectId with
  | .notFound => .error (.notFound "Project not found")
  | .forbidden =>
    .error (.forbidden "Access denied: Only project owners can perform this action")
  | .authorized project =>
    .ok { s with projects :=
      s.projects.map (fun p =>
        if p.pid == projectId then removeTarget targetUserId project else p) }

theorem find_unique_match : ∀ (l : List Project) (pid : Nat) (proj : Project),
    (l.map (fun p => p.pid)).Nodup →
    l.find? (fun p => p.pid == pid) = some proj →
    ∀ p ∈ l, p.pid = pid → p = proj := by
  intro l
  induction l with
  | nil => intro pid proj _ hfind; simp at hfind
  | cons q t ih =>
    intro pid proj hnd hfind p hp hppid
    rw [List.map_cons, List.nodup_cons] at hnd
    by_cases hq : q.pid == pid
    · have hqpid : q.pid = pid := by simpa using hq
      rw [@List.find?_cons_of_pos Project (fun p => p.pid == pid) q t hq] at hfind
      have hqproj : q = proj := by injection hfind
      rcases List.mem_cons.mp hp with rfl | hpt
      · exact hqproj
      · exact absurd (List.mem_map.mpr ⟨p, hpt, by rw [hppid, hqpid]⟩) hnd.1
    · rw [@List.find?_cons_of_neg Project (fun p => p.pid == pid) q t hq] at hfind
      rcases List.mem_cons.mp hp with rfl | hpt
      · exact absurd (by simp [hppid]) hq
      · exact ih pid proj hnd.2 hfind p hpt hppid

theorem map_replace_self (l : List Project) (pid : Nat) (q : Project)
    (hall : ∀ p ∈ l, p.pid = pid → p = q) :
    l.map (fun p => if p.pid == pid then q else p) = l := by
  induction l with
  | nil => rfl
  | cons a t ih =>
    have ht : t.map (fun p => if p.pid == pid then q else p) = t :=
      ih (fun p hp hppid => hall p (List.mem_cons_of_mem a hp) hppid)
    simp only [List.map_cons, ht]
    by_cases ha : a.pid == pid
    · have haq : a = q := hall a (List.mem_cons_self a t) (by simpa using ha)
      rw [if_pos ha, ← haq]
    · rw [if_neg ha]

theorem find?_map_pred {α : Type} (l : List α) (f : α → α) (p : α → Bool)
    (h : ∀ a, p (f a) = p a) :
    (l.map f).find? p = (l.find? p).map f := by
  induction l with
  | nil => rfl
  | cons a t ih =>
    simp only [List.map_cons]
    by_cases ha : p a
    · rw [List.find?_cons_of_pos _ (show p (f a) = true by rw [h]; exact ha),
        List.find?_cons_of_pos _ ha]
      rfl
    · rw [List.find?_cons_of_neg _ (show ¬p (f a) = true by rw [h]; simpa using ha),
        List.find?_cons_of_neg _ (by simpa using ha), ih]

/-- C9: under the ownership gate, removing a member that is absent from
`members` succeeds and leaves the store (in particular the project's
members) unchanged; and running removeMember twice gives exactly the same
result as running it once.  Project ids are assumed unique (`_id` is the
Mongo primary key). -/
theorem removeMember_idempotent (s : Store) (userId projectId targetUserId : Nat)
    (project : Project)
    (hnd : (s.projects.map (fun p => p.pid)).Nodup)
    (hfind : findProjectById s.projects projectId = some project)
    (hown : isProjectOwner userId project = true) :
    (project.members.all (fun m => m.userId != targetUserId) = true →
      removeMember s userId projectId targetUserId = .ok s) ∧
    (removeMember s userId projectId targetUserId).bind
        (fun t => removeMember t userId projectId targetUserId) =
      removeMember s userId projectId targetUserId := by
  have hfind' : s.projects.find? (fun p => p.pid == projectId) = some project := hfind
  have hpidp : project.pid = projectId := by simpa using List.find?_some hfind'
  have hreq : requireProjectOwnership s.projects userId projectId =
      .authorized project := by
    simp [requireProjectOwnership, hfind, hown]
  have hall : ∀ p ∈ s.projects, p.pid = projectId → p = project :=
    find_unique_match s.projects projectId project hnd hfind'
  constructor
  · intro habs
    have hupd : removeTarget targetUserId project = project := by
      simp only [removeTarget]
      rw [List.filter_eq_self.mpr (fun a ha => List.all_eq_true.mp habs a ha)]
    simp only [removeMember, hreq, hupd]
    rw [map_replace_self s.projects projectId project hall]
  · have hgpid : ∀ q : Project,
        ((fun p : Project => if p.pid == projectId then
          removeTarget targetUserId project else p) q).pid = q.pid := by
      intro q
      by_cases hq : q.pid == projectId
      · have hq' : q.pid = projectId := by simpa using hq
        simp only [if_pos hq, removeTarget]
        rw [hpidp, hq']
      · simp only [if_neg hq]
    have hgbeq : ∀ a : Project,
        ((if a.pid == projectId then removeTarget targetUserId project else a).pid ==
          projectId) = (a.pid == projectId) := by
      intro a
      by_cases hq : a.pid == projectId
      · rw [if_pos hq, hq]
        show (project.pid == projectId) = true
        rw [hpidp]
        simp
      · rw [if_neg hq]
    have hfirst : removeMember s userId projectId targetUserId =
        .ok { s with projects := s.projects.map (fun p =>
          if p.pid == projectId then removeTarget targetUserId project else p) } := by
      simp only [removeMember, hreq]
    have hfind2 : (s.projects.map (fun p =>
        if p.pid == projectId then removeTarget targetUserId project else p)).find?
          (fun p => p.pid == projectId) =
        some (removeTarget targetUserId project) := by
      rw [find?_map_pred s.projects
        (fun p => if p.pid == projectId then removeTarget targetUserId project else p)
        (fun p => p.pid == projectId) (fun a => hgbeq a), hfind']
      simp [hpidp]
    have hreq2 : requireProjectOwnership (s.projects.map (fun p =>
        if p.pid == projectId then removeTarget targetUserId project else p)) userId
          projectId = .authorized (removeTarget targetUserId project) := by
      have hown2 : isProjectOwner userId (removeTarget targetUserId project) =
          true := hown
      simp only [requireProjectOwnership, findProjectById, hfind2, hown2, if_true]
    have hall2 : ∀ p ∈ s.projects.map (fun p =>
        if p.pid == projectId then removeTarget targetUserId project else p),
        p.pid = projectId → p = removeTarget targetUserId project := by
      intro p hp hpid2
      rw [List.mem_map] at hp
      obtain ⟨q, hq, rfl⟩ := hp
      by_cases hqp : q.pid == projectId
      · rw [if_pos hqp]
      · rw [if_neg hqp] at hpid2 ⊢
        exact absurd (by simp [hpid2]) hqp
    have hfilter2 : removeTarget targetUserId (removeTarget targetUserId project) =
        removeTarget targetUserId project := by
      simp [removeTarget, List.filter_filter]
    have hsecond : removeMember { s with projects := s.projects.map (fun p =>
        if p.pid == projectId then removeTarget targetUserId project else p) } userId
          projectId targetUserId =
        .ok { s with projects := s.projects.map (fun p =>
          if p.pid == projectId then removeTarget targetUserId project else p) } := by
      simp only [removeMember, hreq2, hfilter2]
      rw [map_replace_self _ _ _ hall2]
    rw [hfirst]
    simp only [Except.bind]
    rw [hsecond, ← hfirst]

/-- Witness for C9: removing absent user 5 from project 10 (owner 1, one
read member 3) is a no-op, and doing it twice equals doing it once. -/
theorem removeMember_idempotent_witness :
    removeMember ⟨[⟨10, "p", 1, [⟨3, .read⟩]⟩], [], [], [], [], []⟩ 1 10 5 =
      .ok ⟨[⟨10, "p", 1, [⟨3, .read⟩]⟩], [], [], [], [], []⟩ ∧
    (removeMember ⟨[⟨10, "p", 1, [⟨3, .read⟩]⟩], [], [], [], [], []⟩ 1 10 5).bind
        (fun t => removeMember t 1 10 5) =
      removeMember ⟨[⟨10, "p", 1, [⟨3, .read⟩]⟩], [], [], [], [], []⟩ 1 10 5 := by
  have h := removeMember_idempotent ⟨[⟨10, "p", 1, [⟨3, .read⟩]⟩], [], [], [], [], []⟩
    1 10 5 ⟨10, "p", 1, [⟨3, .read⟩]⟩ (by decide) (by decide) (by decide)
  exact ⟨h.1 (by decide), h.2⟩

/-- `GET /:projectId/env/:envFileId/content` handler, behind
`requireProjectAccess('read')`: find the row by `{_id, projectId}`,
decrypt, return `{content}` as JSON.  No `logEnvAction` call exists on
this path, and the store is returned unchanged. -/
def getEnvContent (key : Bytes) (s : Store) (userId projectId envFileId : Nat) :
    Except ApiError (Store × Bytes) :=
  match requireProjectAccess s.projects .read userId projectId with
  | .notFound => .error (.notFound "Project not found")
  | .forbidden => .error (.forbidden "Access denied: You do not have access to this project")
  | .authorized _ =>
    match s.envFiles.find? (fun f => f.id == envFileId && f.projectId == projectId) with
    | none => .error (.notFound "Environment file not found")
    | some envFile =>
      match decryptEnv key envFile.encryptedData envFile.iv envFile.authTag with
      | .error _ => .error (.server "Failed to get environment file content")
      | .ok plaintext => .ok (s, plaintext)

/-- C10: for every caller the read-permission gate authorizes (owner, or
member of either level), the get-content route returns the decrypted
plaintext of the requested environment-file version, and the store —
including the audit log — is returned exactly unchanged: no audit entry is
appended by this path. -/
theorem get_content_read_no_audit (key : Bytes) (s : Store)
    (userId projectId envFileId : Nat) (project : Project)
    (envFile : EnvFileRecord) (p nonce : Bytes)
    (haccess : requireProjectAccess s.projects .read userId projectId =
      .authorized project)
    (hfind : s.envFiles.find? (fun f => f.id == envFileId && f.projectId == projectId) =
      some envFile)
    (hkey : key.length = KEY_LENGTH) (hnonce : nonce.length = IV_LENGTH)
    (hsize : p.length ≤ 50 * 1024) (hbytes : ∀ b ∈ p, b < 256)
    (hblob : encryptEnv key nonce p =
      .ok ⟨envFile.encryptedData, envFile.iv, envFile.authTag⟩) :
    getEnvContent key s userId projectId envFileId = .ok (s, p) := by
  have hrt := roundtrip_aux key nonce p hkey hnonce hbytes
  rw [hblob] at hrt
  simp only [Except.bind] at hrt
  simp only [getEnvContent, haccess, hfind, hrt]

/-- Witness for C10: a read-level member (user 3) fetches the content of
row 100 and receives the uploaded plaintext, with the store unchanged. -/
theorem get_content_read_no_audit_witness :
    getEnvContent (List.replicate 32 1)
      ⟨[⟨10, "p", 1, [⟨3, .read⟩]⟩],
       [⟨100, 10, .dev, encBytes (List.replicate 32 1) (List.replicate 16 2) 0 [65],
         List.replicate 16 2,
         gcmTag (List.replicate 32 1) (List.replicate 16 2)
           (encBytes (List.replicate 32 1) (List.replicate 16 2) 0 [65]), 1, 1⟩],
       [⟨1, "n", "e"⟩], [], [], []⟩ 3 10 100 =
    .ok (⟨[⟨10, "p", 1, [⟨3, .read⟩]⟩],
       [⟨100, 10, .dev, encBytes (List.replicate 32 1) (List.replicate 16 2) 0 [65],
         List.replicate 16 2,
         gcmTag (List.replicate 32 1) (List.replicate 16 2)
           (encBytes (List.replicate 32 1) (List.replicate 16 2) 0 [65]), 1, 1⟩],
       [⟨1, "n", "e"⟩], [], [], []⟩, [65]) :=
  get_content_read_no_audit (List.replicate 32 1) _ 3 10 100 ⟨10, "p", 1, [⟨3, .read⟩]⟩
    ⟨100, 10, .dev, encBytes (List.replicate 32 1) (List.replicate 16 2) 0 [65],
      List.replicate 16 2,
      gcmTag (List.replicate 32 1) (List.replicate 16 2)
        (encBytes (List.replicate 32 1) (List.replicate 16 2) 0 [65]), 1, 1⟩
    [65] (List.replicate 16 2) rfl rfl (by decide) (by decide) (by decide)
    (by decide) rfl

/-- `EnvFile.findOne({projectId, environment}).sort({version: -1})`: a row
of maximal version among the rows for the pair (first such row wins ties). -/
def pickLatest (files : List EnvFileRecord) (projectId : Nat) (environment : Env) :
    Option EnvFileRecord :=
  (files.filter (envFileMatches projectId environment)).foldl
    (fun acc f => match acc with
      | none => some f
      | some g => if f.version > g.version then some f else some g) none

/-- Row selection of the download handler: the exact `{projectId,
environment, version}` row when a version is requested, otherwise the
latest row for the pair. -/
def findEnvFileForDownload (files : List EnvFileRecord) (projectId : Nat)
    (environment : Env) (version : Option Nat) : Option EnvFileRecord :=
  match version with
  | some v => files.find? (fun f =>
      f.projectId == projectId && f.environment == environment && f.version == v)
  | none => pickLatest files projectId environment

/-- `GET /:projectId/env` handler body (after `requireProjectAccess('read')`
and query validation): select the requested or latest version, decrypt,
audit `download`, send the plaintext. -/
def downloadEnv (logOk : Bool) (key : Bytes) (s : Store) (userId projectId : Nat)
    (environment : Env) (version : Option Nat) : Except ApiError (Store × Bytes) :=
  match findEnvFileForDownload s.envFiles projectId environment version with
  | none => .error (.notFound "Environment file not found")
  | some envFile =>
    match decryptEnv key envFile.encryptedData envFile.iv envFile.authTag with
    | .error _ => .error (.server "Failed to download environment file")
    | .ok plaintext =>
      let s1 := logEnvAction logOk s projectId userId .download environment
        { fileName := some ".env" } (some envFile.id) (some envFile.version)
      .ok (s1, plaintext)

/-- `GET /:projectId/env/logs/download` handler, behind
`requireProjectOwnership()`: select the project's log entries (optionally
filtered by environment), newest first (`sort createdAt: -1`, i.e. reverse
creation order), capped at 1000, then append an `access` audit entry
(environment defaulted to `dev`) and send the rendered text.  The
plain-text rendering of §6 is not modelled; the response carries the
selected entries it is rendered from. -/
def downloadLogs (logOk : Bool) (s : Store) (userId projectId : Nat)
    (environment : Option Env) : Except ApiError (Store × List EnvLogEntry) :=
  match requireProjectOwnership s.projects userId projectId with
  | .notFound => .error (.notFound "Project not found")
  | .forbidden =>
    .error (.forbidden "Access denied: Only project owners can perform this action")
  | .authorized _ =>
    let selected := ((s.logs.filter (fun e =>
      e.projectId == projectId &&
        match environment with
        | some env => e.environment == env
        | none => true)).reverse.take 1000)
    let s1 := logEnvAction logOk s projectId userId .access
      (environment.getD .dev) { fileName := some "logs.txt" } none none
    .ok (s1, selected)

/-- C8: audit-write failures are harmless.  `logEnvAction` returns the
store unchanged when the acting user's record is missing, and touches
nothing but the audit log in any case; and for each primary operation that
records an audit event (upload, download, edit, delete, access), the
operation's outcome — success or failure, returned value, and every store
collection except the audit log — is identical whether the audit write
fails (`logOk = false`) or succeeds (`logOk = true`). -/
theorem audit_write_failure_is_harmless (logOk : Bool) (key : Bytes) (s : Store)
    (projectId userId newId envFileId : Nat) (environment : Env)
    (content nonce : Bytes) (version : Option Nat) (envOpt : Option Env)
    (action : LogAction) (metadata : LogMetadata) (fid ver : Option Nat) :
    (s.users.find? (fun u => u.id == userId) = none →
      logEnvAction logOk s projectId userId action environment metadata fid ver = s) ∧
    scrubLogs (logEnvAction logOk s projectId userId action environment metadata
      fid ver) = scrubLogs s ∧
    (uploadEnv logOk key s projectId environment content userId newId nonce).map
        (fun r => (scrubLogs r.1, r.2)) =
      (uploadEnv true key s projectId environment content userId newId nonce).map
        (fun r => (scrubLogs r.1, r.2)) ∧
    (downloadEnv logOk key s userId projectId environment version).map
        (fun r => (scrubLogs r.1, r.2)) =
      (downloadEnv true key s userId projectId environment version).map
        (fun r => (scrubLogs r.1, r.2)) ∧
    (editEnv logOk key s userId projectId envFileId content nonce).map scrubLogs =
      (editEnv true key s userId projectId envFileId content nonce).map scrubLogs ∧
    ((deleteEnv logOk s userId projectId envFileId).1.map scrubLogs =
        (deleteEnv true s userId projectId envFileId).1.map scrubLogs ∧
      (deleteEnv logOk s userId projectId envFileId).2 =
        (deleteEnv true s userId projectId envFileId).2) ∧
    (downloadLogs logOk s userId projectId envOpt).map
        (fun r => (scrubLogs r.1, r.2)) =
      (downloadLogs true s userId projectId envOpt).map
        (fun r => (scrubLogs r.1, r.2)) := by
  refine ⟨?_, ?_, ?_, ?_, ?_, ⟨?_, ?_⟩, ?_⟩
  · intro h
    exact logEnvAction_missing_user logOk s projectId userId action environment
      metadata fid ver h
  · exact scrubLogs_logEnvAction logOk s projectId userId action environment
      metadata fid ver
  · simp only [uploadEnv]
    by_cases hsz : 50 * 1024 < content.length
    · simp only [if_pos hsz]
    · simp only [if_neg hsz]
      cases henc : encryptEnv key nonce content with
      | error e => simp [henc, Except.map]
      | ok blob => simp [henc, Except.map, scrubLogs_logEnvAction]
  · simp only [downloadEnv]
    cases hfile : findEnvFileForDownload s.envFiles projectId environment version with
    | none => rfl
    | some envFile =>
      cases hdec : decryptEnv key envFile.encryptedData envFile.iv envFile.authTag with
      | error e => simp [hdec, Except.map]
      | ok pt => simp [hdec, Except.map, scrubLogs_logEnvAction]
  · simp only [editEnv]
    cases hown : requireProjectOwnership s.projects userId projectId with
    | notFound => rfl
    | forbidden => rfl
    | authorized project =>
      cases hfind : s.envFiles.find?
          (fun f => f.id == envFileId && f.projectId == projectId) with
      | none => rfl
      | some envFile =>
        cases henc : encryptEnv key nonce content with
        | error e => simp [henc, Except.map]
        | ok blob => simp [henc, Except.map, scrubLogs_logEnvAction]
  · simp only [deleteEnv]
    cases hown : requireProjectOwnership s.projects userId projectId with
    | notFound => rfl
    | forbidden => rfl
    | authorized project =>
      cases hfind : s.envFiles.find?
          (fun f => f.id == envFileId && f.projectId == projectId) with
      | none => rfl
      | some envFile =>
        have hfL := logEnvAction_frame logOk s projectId userId .delete
          envFile.environment { oldVersion := some envFile.version } (some envFileId)
          (some envFile.version)
        have hfT := logEnvAction_frame true s projectId userId .delete
          envFile.environment { oldVersion := some envFile.version } (some envFileId)
          (some envFile.version)
        simp [Except.map, scrubLogs, hfL.1, hfL.2.1, hfL.2.2.1, hfL.2.2.2.1,
          hfL.2.2.2.2, hfT.1, hfT.2.1, hfT.2.2.1, hfT.2.2.2.1, hfT.2.2.2.2]
  · simp only [deleteEnv]
    cases hown : requireProjectOwnership s.projects userId projectId with
    | notFound => rfl
    | forbidden => rfl
    | authorized project =>
      cases hfind : s.envFiles.find?
          (fun f => f.id == envFileId && f.projectId == projectId) with
      | none => rfl
      | some envFile => rfl
  · simp only [downloadLogs]
    cases hown : requireProjectOwnership s.projects userId projectId with
    | notFound => rfl
    | forbidden => rfl
    | authorized project => simp [Except.map, scrubLogs_logEnvAction]

/-- Witness for C8: with the acting user's record missing and a failing
audit write, the audit call is a no-op and an upload still succeeds with
the same outcome as with a working audit write. -/
theorem audit_write_failure_is_harmless_witness :
    (logEnvAction false ⟨[⟨10, "p", 1, []⟩], [], [], [], [], []⟩ 10 99 .upload .dev
      { } none none = ⟨[⟨10, "p", 1, []⟩], [], [], [], [], []⟩) ∧
    (uploadEnv false (List.replicate 32 1) ⟨[⟨10, "p", 1, []⟩], [], [], [], [], []⟩
        10 .dev [65] 99 100 (List.replicate 16 2)).map
        (fun r => (scrubLogs r.1, r.2)) =
      (uploadEnv true (List.replicate 32 1) ⟨[⟨10, "p", 1, []⟩], [], [], [], [], []⟩
        10 .dev [65] 99 100 (List.replicate 16 2)).map
        (fun r => (scrubLogs r.1, r.2)) := by
  have h := audit_write_failure_is_harmless false (List.replicate 32 1)
    ⟨[⟨10, "p", 1, []⟩], [], [], [], [], []⟩ 10 99 100 0 .dev [65]
    (List.replicate 16 2) none none .upload { } none none
  exact ⟨h.1 (by decide), h.2.2.1⟩

/-- One block of the panic export: project name, environment, version and
decrypted content of the latest version for that pair. -/
structure ExportEntry where
  projectName : String
  environment : Env
  version : Nat
  content : Bytes
  deriving DecidableEq, Repr

/-- The `latestByEnv` accumulation of the panic export: keep, per
environment, the row with the strictly greatest version seen so far. -/
def updateLatest (acc : List (Env × EnvFileRecord)) (f : EnvFileRecord) :
    List (Env × EnvFileRecord) :=
  match acc.find? (fun p => p.1 == f.environment) with
  | none => acc ++ [(f.environment, f)]
  | some g =>
    if f.version > g.2.version then
      acc.map (fun p => if p.1 == f.environment then (p.1, f) else p)
    else acc

/-- The latest version per environment among a project's rows. -/
def latestByEnv (files : List EnvFileRecord) : List (Env × EnvFileRecord) :=
  files.foldl updateLatest []

/-- Export step of the panic handler for one owned project: decrypt the
latest version of each environment, skipping (after a console error) any
row that fails to decrypt; partial results are expected. -/
def exportProject (key : Bytes) (s : Store) (project : Project) : List ExportEntry :=
  (latestByEnv (s.envFiles.filter (fun f => f.projectId == project.pid))).filterMap
    (fun p =>
      match decryptEnv key p.2.encryptedData p.2.iv p.2.authTag with
      | .ok content => some
          { projectName := project.name, environment := p.1,
            version := p.2.version, content := content }
      | .error _ => none)

/-- `for (const project of projects) await
EnvFile.deleteMany({projectId: project._id})` of the flush step. -/
def flushOwned (projects : List Project) (st : Store) : Store :=
  projects.foldl
    (fun acc p =>
      { acc with envFiles := acc.envFiles.filter (fun f => f.projectId != p.pid) })
    st

/-- Observable sub-action events of the panic handler, in execution
order: export, then flush, then revoke. -/
inductive PanicEvent
  | exportRun
  | flushRun
  | revokeRun
  deriving DecidableEq, Repr

/-- The `results` object of the panic response (the text serialization of
the export is carried as its entry blocks). -/
structure PanicResults where
  downloadEnvs : Bool
  flushEnvs : Bool
  revokeCollaborators : Bool
  exportEntries : List ExportEntry
  flushedCount : Nat
  deriving DecidableEq, Repr

/-- `POST /api/settings/panic` handler: load the caller's settings (400 if
absent or no action enabled), collect the projects the caller owns
(`createdBy = userId` — collaborator projects excluded), then run the
enabled sub-actions in the fixed order download → flush → revoke.  Named
secrets are never touched.  The event list records which sub-actions ran,
in order. -/
def panic (key : Bytes) (s : Store) (userId : Nat) :
    Except ApiError (Store × PanicResults) × List PanicEvent :=
  match s.settings.find? (fun cfg => cfg.userId == userId) with
  | none => (.error (.badRequest "Panic button not configured"), [])
  | some cfg =>
    if !(cfg.panicButton.flushEnvs || cfg.panicButton.revokeCollaborators ||
        cfg.panicButton.downloadEnvs) then
      (.error (.badRequest "No panic actions configured"), [])
    else
      let projects := s.projects.filter (fun p => p.createdBy == userId)
      let exportEntries :=
        if cfg.panicButton.downloadEnvs then
          projects.flatMap (fun p => exportProject key s p)
        else []
      let trace1 : List PanicEvent :=
        if cfg.panicButton.downloadEnvs then [.exportRun] else []
      let flushedCount :=
        if cfg.panicButton.flushEnvs then
          (s.envFiles.filter (fun f => projects.any (fun p => p.pid == f.projectId))).length
        else 0
      let s2 := if cfg.panicButton.flushEnvs then flushOwned projects s else s
      let trace2 : List PanicEvent :=
        if cfg.panicButton.flushEnvs then [.flushRun] else []
      let s3 :=
        if cfg.panicButton.revokeCollaborators then
          { s2 with projects := s2.projects.map (fun p =>
              if p.createdBy == userId then { p with members := [] } else p) }
        else s2
      let trace3 : List PanicEvent :=
        if cfg.panicButton.revokeCollaborators then [.revokeRun] else []
      (.ok (s3, { downloadEnvs := cfg.panicButton.downloadEnvs,
                  flushEnvs := cfg.panicButton.flushEnvs,
                  revokeCollaborators := cfg.panicButton.revokeCollaborators,
                  exportEntries := exportEntries, flushedCount := flushedCount }),
       trace1 ++ trace2 ++ trace3)

theorem flushOwned_spec (projects : List Project) : ∀ st : Store,
    flushOwned projects st =
      { st with
          envFiles := st.envFiles.filter
            (fun f => !projects.any (fun p => p.pid == f.projectId)) } := by
  induction projects with
  | nil =>
    intro st
    show st = _
    simp
  | cons p ps ih =>
    intro st
    show flushOwned ps
      { st with envFiles := st.envFiles.filter (fun f => f.projectId != p.pid) } = _
    rw [ih]
    congr 1
    rw [List.filter_filter]
    apply List.filter_congr
    intro a _
    by_cases h : a.projectId = p.pid
    · simp [h, bne]
    · have h1 : (a.projectId == p.pid) = false := by simp [h]
      have h2 : (p.pid == a.projectId) = false := by simp [Ne.symm h]
      simp [bne, h1, h2, Bool.and_comm]

/-- C7: with `flushEnvs` enabled, the panic handler succeeds and its final
store keeps exactly the environment-file rows whose project is not owned
by the invoking user — every version of every environment of every owned
project is deleted, while rows of projects where the user is merely a
collaborator survive — and the named-secret collection is untouched; the
flush sub-action runs after the export sub-action whenever `downloadEnvs`
is also enabled (and before revoke). -/
theorem panic_flush_scope_and_order (key : Bytes) (s : Store) (userId : Nat)
    (cfg : UserSettingsRecord)
    (hfind : s.settings.find? (fun c => c.userId == userId) = some cfg)
    (hflush : cfg.panicButton.flushEnvs = true) :
    ∃ t res, (panic key s userId).1 = .ok (t, res) ∧
      t.envFiles = s.envFiles.filter (fun f =>
        !((s.projects.filter (fun p => p.createdBy == userId)).any
          (fun p => p.pid == f.projectId))) ∧
      t.secrets = s.secrets ∧
      (panic key s userId).2 =
        (if cfg.panicButton.downloadEnvs then [PanicEvent.exportRun] else []) ++
          [PanicEvent.flushRun] ++
          (if cfg.panicButton.revokeCollaborators then [PanicEvent.revokeRun] else []) ∧
      (∀ f ∈ s.envFiles,
        (∀ p ∈ s.projects.filter (fun p => p.createdBy == userId),
          p.pid ≠ f.projectId) →
        f ∈ t.envFiles) := by
  have hguard : (!(cfg.panicButton.flushEnvs || cfg.panicButton.revokeCollaborators ||
      cfg.panicButton.downloadEnvs)) = false := by
    rw [hflush]
    simp
  simp only [panic, hfind, hguard, Bool.false_eq_true, if_false, hflush, if_true]
  refine ⟨_, _, rfl, ?_, ?_, rfl, ?_⟩
  · cases hrv : cfg.panicButton.revokeCollaborators with
    | true =>
      simp only [hrv, if_true]
      show (flushOwned (s.projects.filter (fun p => p.createdBy == userId)) s).envFiles = _
      rw [flushOwned_spec]
    | false =>
      simp only [hrv, Bool.false_eq_true, if_false]
      rw [flushOwned_spec]
  · cases hrv : cfg.panicButton.revokeCollaborators with
    | true =>
      simp only [hrv, if_true]
      show (flushOwned (s.projects.filter (fun p => p.createdBy == userId)) s).secrets = _
      rw [flushOwned_spec]
    | false =>
      simp only [hrv, Bool.false_eq_true, if_false]
      rw [flushOwned_spec]
  · intro f hf hnot
    have hany : (s.projects.filter (fun p => p.createdBy == userId)).any
        (fun p => p.pid == f.projectId) = false := by
      cases hany : (s.projects.filter (fun p => p.createdBy == userId)).any
          (fun p => p.pid == f.projectId) with
      | false => rfl
      | true =>
        obtain ⟨p, hp, hpid⟩ := List.any_eq_true.mp hany
        exact absurd (by simpa using hpid) (hnot p hp)
    cases hrv : cfg.panicButton.revokeCollaborators with
    | true =>
      simp only [hrv, if_true]
      show f ∈ (flushOwned (s.projects.filter (fun p => p.createdBy == userId)) s).envFiles
      rw [flushOwned_spec]
      exact List.mem_filter.mpr ⟨hf, by simp [hany]⟩
    | false =>
      simp only [hrv, Bool.false_eq_true, if_false]
      rw [flushOwned_spec]
      exact List.mem_filter.mpr ⟨hf, by simp [hany]⟩

/-- Witness for C7: user 1 owns project 10 (two env rows) and collaborates
on project 20 (one row, owned by user 2); a secret exists.  The panic run
with download+flush+revoke enabled keeps exactly project 20's row, keeps
the secret, and runs export before flush before revoke. -/
theorem panic_flush_scope_and_order_witness :
    ∃ t res,
      (panic (List.replicate 32 1)
        ⟨[⟨10, "p", 1, [⟨2, .write⟩]⟩, ⟨20, "q", 2, [⟨1, .write⟩]⟩],
         [⟨100, 10, .dev, [9], List.replicate 16 3, List.replicate 16 4, 1, 1⟩,
          ⟨101, 10, .prod, [8], List.replicate 16 3, List.replicate 16 4, 1, 1⟩,
          ⟨200, 20, .dev, [7], List.replicate 16 3, List.replicate 16 4, 1, 2⟩],
         [⟨1, "n", "e"⟩], [], [⟨500, 10, "apiKey", ⟨[1], [2], [3]⟩⟩],
         [⟨1, none, ⟨true, true, true, false⟩⟩]⟩ 1).1 = .ok (t, res) ∧
      t.envFiles = [⟨200, 20, .dev, [7], List.replicate 16 3, List.replicate 16 4, 1, 2⟩] ∧
      t.secrets = [⟨500, 10, "apiKey", ⟨[1], [2], [3]⟩⟩] ∧
      (panic (List.replicate 32 1)
        ⟨[⟨10, "p", 1, [⟨2, .write⟩]⟩, ⟨20, "q", 2, [⟨1, .write⟩]⟩],
         [⟨100, 10, .dev, [9], List.replicate 16 3, List.replicate 16 4, 1, 1⟩,
          ⟨101, 10, .prod, [8], List.replicate 16 3, List.replicate 16 4, 1, 1⟩,
          ⟨200, 20, .dev, [7], List.replicate 16 3, List.replicate 16 4, 1, 2⟩],
         [⟨1, "n", "e"⟩], [], [⟨500, 10, "apiKey", ⟨[1], [2], [3]⟩⟩],
         [⟨1, none, ⟨true, true, true, false⟩⟩]⟩ 1).2 =
        [.exportRun, .flushRun, .revokeRun] := by
  obtain ⟨t, res, h1, h2, h3, h4, h5⟩ := panic_flush_scope_and_order
    (List.replicate 32 1)
    ⟨[⟨10, "p", 1, [⟨2, .write⟩]⟩, ⟨20, "q", 2, [⟨1, .write⟩]⟩],
     [⟨100, 10, .dev, [9], List.replicate 16 3, List.replicate 16 4, 1, 1⟩,
      ⟨101, 10, .prod, [8], List.replicate 16 3, List.replicate 16 4, 1, 1⟩,
      ⟨200, 20, .dev, [7], List.replicate 16 3, List.replicate 16 4, 1, 2⟩],
     [⟨1, "n", "e"⟩], [], [⟨500, 10, "apiKey", ⟨[1], [2], [3]⟩⟩],
     [⟨1, none, ⟨true, true, true, false⟩⟩]⟩ 1 ⟨1, none, ⟨true, true, true, false⟩⟩
    (by decide) (by decide)
  refine ⟨t, res, h1, ?_, h3, by rw [h4]; rfl⟩
  rw [h2]
  rfl

end HashEnv
